import Mathlib

/-!
Shallow embedding of the D-FENSE data filtering and smoothing pipeline
(`DFENSE_DataFilteringSmoothing.py`), covering `denoise_svd`, its spectral
threshold helpers (`optimal_svht_coef_sigma_known`, `median_marcenko_pastur`),
and the smoothing/spline stage of `main`.

External numeric routines (`np.linalg.svd`, `scipy.integrate.quad`,
`scipy.signal.savgol_filter`, `scipy.interpolate.CubicSpline`) are modelled as
oracle parameters constrained by their documented contracts; everything else is
transcribed from the source.
-/

/-- Errors raised by `denoise_svd` (all `ValueError`s in the Python source):
the window check at line 52, the rank validation at line 69, and the
negative-size `np.zeros(len(S) - r)` inside the truncation at line 73. -/
inductive DenoiseError where
  | invalidWindow
  | invalidRank
  | negativeDim
  deriving DecidableEq, Repr

/-- Hankel matrix of the series `x` with window `w`:
`np.lib.stride_tricks.sliding_window_view(x, w)` has shape `(N - w + 1, w)`
and entry `(i, j) = x[i + j]`. -/
def hankel (x : List ℚ) (w : Nat) : Matrix (Fin (x.length - w + 1)) (Fin w) ℚ :=
  Matrix.of fun i j => x.getD (i.1 + j.1) 0

/-- The Hankel-embedding step of `denoise_svd` (source lines 50–57): reject
with the window `ValueError` if `w > N`, otherwise build the sliding-window
matrix. -/
def embedStep (x : List ℚ) (w : Nat) :
    Except DenoiseError (Matrix (Fin (x.length - w + 1)) (Fin w) ℚ) :=
  if x.length < w then .error .invalidWindow else .ok (hankel x w)

/-- Economy-size SVD data of an `m × n` matrix, as returned by
`np.linalg.svd(H, full_matrices=False)`: `U` is `m × p`, `S` has length
`p = min m n`, `Vt` is `p × n`.  The factorization property
`U * diag S * Vt = H` is carried as a hypothesis where a claim needs it. -/
structure EconSVD (m n : Nat) where
  U : Matrix (Fin m) (Fin (min m n)) ℚ
  S : Fin (min m n) → ℚ
  Vt : Matrix (Fin (min m n)) (Fin n) ℚ

/-- `np.median` of a list: sort, then take the middle element (odd length) or
the mean of the two middle elements (even length). -/
def medianList (l : List ℚ) : ℚ :=
  let s := List.insertionSort (· ≤ ·) l
  if l.length % 2 = 1 then s.getD (l.length / 2) 0
  else (s.getD (l.length / 2 - 1) 0 + s.getD (l.length / 2) 0) / 2

/-- Truncation step `np.diag(np.concatenate([S[:r], np.zeros(len(S) - r)]))`
(source line 73): keep the first `r` singular values and zero the rest;
`np.zeros` raises `ValueError` on the negative size `len(S) - r` when
`r > len(S)`. -/
def truncateS {p : Nat} (S : Fin p → ℚ) (r : Nat) :
    Except DenoiseError (Fin p → ℚ) :=
  if p < r then .error .negativeDim
  else .ok fun i => if i.1 < r then S i else 0

/-- Number of Hankel entries `(i, j)` accumulated onto output index `k` by the
diagonal-averaging loop (source lines 82–85): the value of `count[k]`. -/
def countAt (m w k : Nat) : Nat :=
  (Finset.univ.filter fun p : Fin m × Fin w => p.1.1 + p.2.1 = k).card

/-- Diagonal averaging (source lines 79–86): accumulate every matrix entry
`(i, j)` onto output index `i + j`, count the contributions, and divide
element-wise. -/
def diagAvg {m w : Nat} (N : Nat) (Hd : Matrix (Fin m) (Fin w) ℚ) : List ℚ :=
  (List.range N).map fun k =>
    (∑ p ∈ Finset.univ.filter fun p : Fin m × Fin w => p.1.1 + p.2.1 = k,
        Hd p.1 p.2) / (countAt m w k : ℚ)

/-- `denoise_svd` from the source.  The SVD of the Hankel matrix and the
coefficient `optimal_svht_coef(beta, sigma_known=False)` are external
numerics, supplied as the oracle arguments `svd` and `coef`.  Mirrors the
source's order: window check, Hankel embedding, SVD, rank
selection/validation, truncation, reconstruction, diagonal averaging. -/
def denoise_svd (x : List ℚ) (w : Nat) (ropt : Option Nat)
    (svd : EconSVD (x.length - w + 1) w) (coef : ℚ) :
    Except DenoiseError (List ℚ × Nat) :=
  if x.length < w then .error .invalidWindow else
    let rsel : Except DenoiseError Nat :=
      match ropt with
      | none =>
          let thresh := coef * medianList (List.ofFn svd.S)
          .ok (Finset.univ.filter fun i => thresh < svd.S i).card
      | some r => if r = 0 ∨ w < r then .error .invalidRank else .ok r
    match rsel with
    | .error e => .error e
    | .ok r =>
        match truncateS svd.S r with
        | .error e => .error e
        | .ok Sr =>
            let Hd := svd.U * Matrix.diagonal Sr * svd.Vt
            .ok (diagAvg x.length Hd, r)

/-! ### Counting lemmas for the diagonal-averaging loop -/

theorem countAt_eq_filter (m w k : Nat) :
    countAt m w k = ((Finset.range m).filter fun i => i ≤ k ∧ k < i + w).card := by
  classical
  apply Finset.card_bij (fun p _ => p.1.1)
  · intro p hp
    simp only [Finset.mem_filter, Finset.mem_univ, true_and] at hp
    have h1 := p.1.2
    have h2 := p.2.2
    simp only [Finset.mem_filter, Finset.mem_range]
    omega
  · intro a ha b hb h
    simp only [Finset.mem_filter, Finset.mem_univ, true_and] at ha hb
    rcases a with ⟨⟨i, hi⟩, ⟨j, hj⟩⟩
    rcases b with ⟨⟨i', hi'⟩, ⟨j', hj'⟩⟩
    simp only at ha hb h
    subst h
    have : j = j' := by omega
    subst this
    rfl
  · intro i hi
    simp only [Finset.mem_filter, Finset.mem_range] at hi
    refine ⟨(⟨i, hi.1⟩, ⟨k - i, by omega⟩), ?_, rfl⟩
    simp only [Finset.mem_filter, Finset.mem_univ, true_and]
    omega

theorem countAt_closed (m w k : Nat) :
    countAt m w k = min (k + 1) m - (k + 1 - w) := by
  rw [countAt_eq_filter]
  have hset : ((Finset.range m).filter fun i => i ≤ k ∧ k < i + w) =
      Finset.Ico (k + 1 - w) (min (k + 1) m) := by
    ext i
    simp only [Finset.mem_filter, Finset.mem_range, Finset.mem_Ico]
    omega
  rw [hset, Nat.card_Ico]

theorem countAt_pos (N w k : Nat) (h1 : 1 ≤ w) (h2 : w ≤ N) (hk : k < N) :
    0 < countAt (N - w + 1) w k := by
  rw [countAt_closed]; omega

theorem diagAvg_hankel (x : List ℚ) (w : Nat) (h1 : 1 ≤ w) (h2 : w ≤ x.length) :
    diagAvg x.length (hankel x w) = x := by
  apply List.ext_getElem
  · simp [diagAvg]
  · intro k hk1 hk2
    simp only [diagAvg, List.getElem_map, List.getElem_range]
    have hterm : ∀ p ∈ (Finset.univ.filter
        fun p : Fin (x.length - w + 1) × Fin w => p.1.1 + p.2.1 = k),
        hankel x w p.1 p.2 = x.getD k 0 := by
      intro p hp
      simp only [Finset.mem_filter, Finset.mem_univ, true_and] at hp
      simp [hankel, hp]
    rw [Finset.sum_congr rfl hterm, Finset.sum_const, nsmul_eq_mul]
    have hc : ((countAt (x.length - w + 1) w k : ℚ)) ≠ 0 :=
      Nat.cast_ne_zero.mpr (countAt_pos x.length w k h1 h2 hk2).ne'
    rw [show ((Finset.univ.filter
        fun p : Fin (x.length - w + 1) × Fin w => p.1.1 + p.2.1 = k).card : ℚ)
        = (countAt (x.length - w + 1) w k : ℚ) from rfl]
    rw [mul_div_cancel_left₀ _ hc]
    exact List.getD_eq_getElem x 0 hk2

theorem diagAvg_zero (m w N : Nat) :
    diagAvg N (0 : Matrix (Fin m) (Fin w) ℚ) = List.replicate N 0 := by
  apply List.ext_getElem
  · simp [diagAvg]
  · intro k hk1 hk2
    simp [diagAvg]

/-! ### C7: diagonal-averaging counters -/

/-- C7: for `1 ≤ w ≤ N` and output index `k < N`, the counter accumulated by
the diagonal-averaging loop equals `min(k+1, w, N−k, N−w+1)` and is at least
1, so the final element-wise division is well-defined. -/
theorem diag_counter_formula (N w k : Nat) (h1 : 1 ≤ w) (h2 : w ≤ N) (hk : k < N) :
    countAt (N - w + 1) w k = min (min (k + 1) w) (min (N - k) (N - w + 1)) ∧
    1 ≤ countAt (N - w + 1) w k := by
  rw [countAt_closed]
  omega

/-- Witness for `diag_counter_formula` at the claim's own instance
`N = 10, w = 3`: the counts at positions 0 and 9 equal 1. -/
theorem diag_counter_formula_witness :
    (countAt (10 - 3 + 1) 3 0 = min (min (0 + 1) 3) (min (10 - 0) (10 - 3 + 1)) ∧
      1 ≤ countAt (10 - 3 + 1) 3 0) ∧
    (countAt (10 - 3 + 1) 3 9 = min (min (9 + 1) 3) (min (10 - 9) (10 - 3 + 1)) ∧
      1 ≤ countAt (10 - 3 + 1) 3 9) :=
  ⟨diag_counter_formula 10 3 0 (by decide) (by decide) (by decide),
   diag_counter_formula 10 3 9 (by decide) (by decide) (by decide)⟩

/-! ### C1: full-rank identity -/

/-- C1: with the supplied rank `r = min(N−w+1, w)` no singular value is
discarded, so for any factorization `U * diag S * Vt` of the Hankel matrix
(in particular the SVD), `denoise_svd` reconstructs the input series exactly
and returns the supplied rank. -/
theorem denoise_full_rank_identity (x : List ℚ) (w : Nat)
    (svd : EconSVD (x.length - w + 1) w) (coef : ℚ)
    (h1 : 1 ≤ w) (h2 : w ≤ x.length)
    (hsvd : svd.U * Matrix.diagonal svd.S * svd.Vt = hankel x w) :
    denoise_svd x w (some (min (x.length - w + 1) w)) svd coef =
      .ok (x, min (x.length - w + 1) w) := by
  have hN : ¬ (x.length < w) := Nat.not_lt.mpr h2
  have hv : ¬ (min (x.length - w + 1) w = 0 ∨ w < min (x.length - w + 1) w) := by omega
  have hp : ¬ (min (x.length - w + 1) w < min (x.length - w + 1) w) := lt_irrefl _
  simp only [denoise_svd, truncateS, if_neg hN, if_neg hv, if_neg hp]
  have hS : (fun i : Fin (min (x.length - w + 1) w) =>
      if i.1 < min (x.length - w + 1) w then svd.S i else 0) = svd.S := by
    funext i
    exact if_pos i.isLt
  rw [hS, hsvd, diagAvg_hankel x w h1 h2]

/-- Witness for `denoise_full_rank_identity` on the series `[2,2]` with
`w = 1` and the factorization `U = [[2],[2]], S = [1], Vt = [[1]]`. -/
theorem denoise_full_rank_identity_witness :
    denoise_svd [2, 2] 1 (some 1) ⟨fun _ _ => 2, fun _ => 1, fun _ _ => 1⟩ 0 =
      .ok ([2, 2], 1) :=
  denoise_full_rank_identity [2, 2] 1 ⟨fun _ _ => 2, fun _ => 1, fun _ _ => 1⟩ 0
    (by decide) (by decide)
    (by
      funext i j
      fin_cases i <;> fin_cases j <;>
        simp [Matrix.mul_apply, Matrix.diagonal, hankel, Fin.sum_univ_one])

/-! ### C2: caller-supplied rank — corrected -/

/-- C2 counterexample: for `x = [0,0,0]`, `w = 3` (so `1 ≤ w ≤ N`) and the
caller-supplied rank `r = 2` with `1 ≤ r ≤ w`, `denoise_svd` does NOT
complete: the truncation step fails, because `len(S) = min(N−w+1, w) = 1 < r`
makes `np.zeros(len(S) - r)` receive a negative size.  The supplied
factorization `U = [[1]], S = [0], Vt = 0` satisfies `U·diag(S)·Vt = H`. -/
theorem denoise_supplied_rank_cex :
    denoise_svd [0, 0, 0] 3 (some 2) ⟨Matrix.of fun _ _ => 1, 0, 0⟩ 0 =
      .error .negativeDim ∧
    (⟨Matrix.of fun _ _ => 1, 0, 0⟩ : EconSVD 1 3).U *
        Matrix.diagonal (⟨Matrix.of fun _ _ => 1, 0, 0⟩ : EconSVD 1 3).S *
        (⟨Matrix.of fun _ _ => 1, 0, 0⟩ : EconSVD 1 3).Vt = hankel [0, 0, 0] 3 := by
  constructor
  · rfl
  · rw [show (⟨Matrix.of fun _ _ => 1, 0, 0⟩ : EconSVD 1 3).S = 0 from rfl,
      show Matrix.diagonal (0 : Fin (min 1 3) → ℚ) = 0 from Matrix.diagonal_zero,
      Matrix.mul_zero]
    funext i j
    fin_cases i
    fin_cases j <;> rfl

/-- C2 amended: the rank validation accepts exactly `1 ≤ r ≤ w` and rejects
with the rank `ValueError` exactly when `r = 0` or `r > w`; but the call
completes without error only when additionally `r ≤ N−w+1`, i.e. exactly when
`1 ≤ r ≤ min(N−w+1, w)` — for `min(N−w+1, w) < r ≤ w` the truncation step
fails downstream of validation on the negative-size `np.zeros`. -/
theorem denoise_supplied_rank_validation (x : List ℚ) (w r : Nat)
    (svd : EconSVD (x.length - w + 1) w) (coef : ℚ)
    (_h1 : 1 ≤ w) (h2 : w ≤ x.length) :
    ((∃ y, denoise_svd x w (some r) svd coef = .ok y) ↔
      1 ≤ r ∧ r ≤ min (x.length - w + 1) w) ∧
    ((denoise_svd x w (some r) svd coef = .error .invalidRank) ↔
      (r = 0 ∨ w < r)) := by
  have hN : ¬ (x.length < w) := Nat.not_lt.mpr h2
  by_cases hv : r = 0 ∨ w < r
  · constructor
    · simp only [denoise_svd, if_neg hN, if_pos hv]
      constructor
      · rintro ⟨y, hy⟩
        cases hy
      · intro h
        omega
    · simp only [denoise_svd, if_neg hN, if_pos hv]
      simp [hv]
  · by_cases hp : min (x.length - w + 1) w < r
    · constructor
      · simp only [denoise_svd, truncateS, if_neg hN, if_neg hv, if_pos hp]
        constructor
        · rintro ⟨y, hy⟩
          cases hy
        · intro h
          omega
      · simp only [denoise_svd, truncateS, if_neg hN, if_neg hv, if_pos hp]
        simp [hv]
    · constructor
      · simp only [denoise_svd, truncateS, if_neg hN, if_neg hv, if_neg hp]
        constructor
        · intro _
          omega
        · intro _
          exact ⟨_, rfl⟩
      · simp only [denoise_svd, truncateS, if_neg hN, if_neg hv, if_neg hp]
        simp [hv]

/-- Witness for `denoise_supplied_rank_validation` at `x = [1,2,3]`, `w = 2`,
`r = 1`. -/
theorem denoise_supplied_rank_validation_witness :
    ∃ y, denoise_svd [1, 2, 3] 2 (some 1) ⟨0, 0, 0⟩ 0 = .ok y :=
  (denoise_supplied_rank_validation [1, 2, 3] 2 1 ⟨0, 0, 0⟩ 0
    (by decide) (by decide)).1.mpr (by decide)

/-! ### C3: automatic rank selection -/

/-- C3: when no rank is supplied, `denoise_svd` sets the threshold to
`coef × median(S)` (`coef` standing for `optimal_svht_coef(β, sigma_known=False)`),
selects the rank as the count of singular values strictly above it, raises no
error, and in the degenerate case `r = 0` returns the all-zero series as-is. -/
theorem denoise_auto_rank_selection (x : List ℚ) (w : Nat)
    (svd : EconSVD (x.length - w + 1) w) (coef : ℚ)
    (_h1 : 1 ≤ w) (h2 : w ≤ x.length) :
    ∃ y, denoise_svd x w none svd coef =
        .ok (y, (Finset.univ.filter fun i =>
          coef * medianList (List.ofFn svd.S) < svd.S i).card) ∧
      ((Finset.univ.filter fun i =>
          coef * medianList (List.ofFn svd.S) < svd.S i).card = 0 →
        y = List.replicate x.length 0) := by
  have hN : ¬ (x.length < w) := Nat.not_lt.mpr h2
  have hcard : (Finset.univ.filter fun i =>
      coef * medianList (List.ofFn svd.S) < svd.S i).card ≤
      min (x.length - w + 1) w := by
    calc (Finset.univ.filter fun i =>
        coef * medianList (List.ofFn svd.S) < svd.S i).card
        ≤ (Finset.univ : Finset (Fin (min (x.length - w + 1) w))).card :=
          Finset.card_filter_le _ _
      _ = min (x.length - w + 1) w := by simp
  have hp : ¬ (min (x.length - w + 1) w < (Finset.univ.filter fun i =>
      coef * medianList (List.ofFn svd.S) < svd.S i).card) := Nat.not_lt.mpr hcard
  refine ⟨diagAvg x.length
      (svd.U * Matrix.diagonal (fun i : Fin (min (x.length - w + 1) w) =>
        if i.1 < (Finset.univ.filter fun i =>
          coef * medianList (List.ofFn svd.S) < svd.S i).card then svd.S i else 0) *
        svd.Vt), ?_, ?_⟩
  · simp only [denoise_svd, truncateS, if_neg hN, if_neg hp]
  · intro h0
    rw [h0]
    have hz : (fun i : Fin (min (x.length - w + 1) w) =>
        if i.1 < 0 then svd.S i else 0) =
        (0 : Fin (min (x.length - w + 1) w) → ℚ) := by
      funext i
      simp
    rw [hz,
      show Matrix.diagonal (0 : Fin (min (x.length - w + 1) w) → ℚ) = 0 from
        Matrix.diagonal_zero,
      Matrix.mul_zero, Matrix.zero_mul]
    exact diagAvg_zero _ _ _

/-- Witness for `denoise_auto_rank_selection` at `x = [1,1]`, `w = 1`, with
the zero factorization oracle and `coef = 0`. -/
theorem denoise_auto_rank_selection_witness :
    ∃ y, denoise_svd [1, 1] 1 none ⟨0, 0, 0⟩ 0 =
        .ok (y, (Finset.univ.filter fun i =>
          (0 : ℚ) * medianList (List.ofFn ((⟨0, 0, 0⟩ : EconSVD 2 1).S)) <
            (⟨0, 0, 0⟩ : EconSVD 2 1).S i).card) ∧
      ((Finset.univ.filter fun i =>
          (0 : ℚ) * medianList (List.ofFn ((⟨0, 0, 0⟩ : EconSVD 2 1).S)) <
            (⟨0, 0, 0⟩ : EconSVD 2 1).S i).card = 0 →
        y = List.replicate 2 0) :=
  denoise_auto_rank_selection [1, 1] 1 ⟨0, 0, 0⟩ 0 (by decide) (by decide)

/-! ### C8: window validation — corrected -/

/-- C8 counterexample: at `w = 0 < 1` the embedding step does not reject —
the source only checks `w > N`, so `w = 0` flows on into a degenerate
`(N+1) × 0` sliding-window view instead of failing with the window error. -/
theorem hankel_window_validation_cex :
    embedStep [1, 2, 3] 0 = .ok (hankel [1, 2, 3] 0) ∧
    embedStep [1, 2, 3] 0 ≠ .error .invalidWindow := by
  constructor
  · rfl
  · intro h
    cases h

/-- C8 amended: the embedding step rejects with the window error exactly when
`w > N` (there is no `w < 1` check); for every `w ≤ N` it produces the
`(N−w+1) × w` Hankel matrix whose row `i` is the contiguous slice of the
series starting at `i`. -/
theorem hankel_window_validation (x : List ℚ) (w : Nat) :
    ((embedStep x w = .error .invalidWindow) ↔ x.length < w) ∧
    (w ≤ x.length → ∃ H, embedStep x w = .ok H ∧
      ∀ i : Fin (x.length - w + 1), List.ofFn (H i) = (x.drop i.1).take w) := by
  constructor
  · by_cases h : x.length < w
    · simp [embedStep, h]
    · simp [embedStep, h]
  · intro hw
    refine ⟨hankel x w, by simp [embedStep, Nat.not_lt.mpr hw], ?_⟩
    intro i
    have hi : i.1 ≤ x.length - w := Nat.lt_succ_iff.mp i.2
    apply List.ext_getElem
    · simp only [List.length_ofFn, List.length_take, List.length_drop]
      omega
    · intro j hj1 hj2
      simp only [List.getElem_ofFn, List.getElem_take, List.getElem_drop,
        hankel, Matrix.of_apply]
      have hb : i.1 + j < x.length := by
        simp only [List.length_ofFn] at hj1
        omega
      rw [List.getD_eq_getElem x 0 hb]

/-- Witness for `hankel_window_validation` at `x = [5, 7]`, `w = 2`. -/
theorem hankel_window_validation_witness :
    ((embedStep [5, 7] 2 = .error .invalidWindow) ↔ List.length ([5, 7] : List ℚ) < 2) ∧
    (∃ H, embedStep [5, 7] 2 = .ok H ∧
      ∀ i : Fin 1, List.ofFn (H i) = (([5, 7] : List ℚ).drop i.1).take 2) :=
  ⟨(hankel_window_validation [5, 7] 2).1,
   (hankel_window_validation [5, 7] 2).2 (by decide)⟩

/-! ### C4: known-noise-scale threshold coefficient — corrected -/

/-- `optimal_svht_coef_sigma_known` from the source (lines 105–108):
`w_val = 8β / (β + 1 + sqrt(β² + 14β + 1))`, result
`sqrt(2(β+1) + w_val)`. -/
noncomputable def optimal_svht_coef_sigma_known (beta : ℝ) : ℝ :=
  Real.sqrt (2 * (beta + 1) +
    (8 * beta) / (beta + 1 + Real.sqrt (beta ^ 2 + 14 * beta + 1)))

theorem svht_coef_known_at_one :
    optimal_svht_coef_sigma_known 1 = Real.sqrt (16 / 3) := by
  unfold optimal_svht_coef_sigma_known
  rw [show (1 : ℝ) ^ 2 + 14 * 1 + 1 = 4 ^ 2 by norm_num,
    Real.sqrt_sq (by norm_num : (0 : ℝ) ≤ 4)]
  norm_num

/-- C4 counterexample: at `β = 1` the known-noise-scale coefficient equals
`√(16/3) < 2.4`, so it is not the claimed fixed reference constant
`≈ 2.8582` (that value is the unknown-noise-scale `ω(1)`). -/
theorem svht_coef_known_reference_cex :
    optimal_svht_coef_sigma_known 1 < 2.4 ∧ (2.4 : ℝ) < 2.8582 := by
  refine ⟨?_, by norm_num⟩
  rw [svht_coef_known_at_one]
  rw [Real.sqrt_lt' (by norm_num : (0 : ℝ) < 2.4)]
  norm_num

/-- C4 amended: on `β ∈ (0, 1]` the closed-form coefficient
`sqrt(2(β+1) + 8β/(β+1+sqrt(β²+14β+1)))` is real and positive, and at
`β = 1` it equals `√(16/3) ≈ 2.3094` (not `≈ 2.8582`). -/
theorem svht_coef_known_positive (beta : ℝ) (h0 : 0 < beta) (_h1 : beta ≤ 1) :
    0 < optimal_svht_coef_sigma_known beta ∧
    optimal_svht_coef_sigma_known 1 = Real.sqrt (16 / 3) ∧
    2.309 < optimal_svht_coef_sigma_known 1 ∧
    optimal_svht_coef_sigma_known 1 < 2.3095 := by
  refine ⟨?_, svht_coef_known_at_one, ?_, ?_⟩
  · rw [optimal_svht_coef_sigma_known, Real.sqrt_pos]
    have hd : 0 < beta + 1 + Real.sqrt (beta ^ 2 + 14 * beta + 1) := by
      have := Real.sqrt_nonneg (beta ^ 2 + 14 * beta + 1)
      nlinarith
    have : 0 < (8 * beta) / (beta + 1 + Real.sqrt (beta ^ 2 + 14 * beta + 1)) :=
      div_pos (by nlinarith) hd
    nlinarith
  · rw [svht_coef_known_at_one, Real.lt_sqrt (by norm_num : (0 : ℝ) ≤ 2.309)]
    norm_num
  · rw [svht_coef_known_at_one, Real.sqrt_lt' (by norm_num : (0 : ℝ) < 2.3095)]
    norm_num

/-- Witness for `svht_coef_known_positive` at `β = 1`. -/
theorem svht_coef_known_positive_witness :
    0 < optimal_svht_coef_sigma_known 1 ∧
    optimal_svht_coef_sigma_known 1 = Real.sqrt (16 / 3) ∧
    2.309 < optimal_svht_coef_sigma_known 1 ∧
    optimal_svht_coef_sigma_known 1 < 2.3095 :=
  svht_coef_known_positive 1 one_pos le_rfl

/-! ### The Marchenko–Pastur median grid bisection (source lines 116–139)

The distribution function `marpas = 1 - inc_mar_pas(·, β, 0)` is evaluated in
the source through `scipy.integrate.quad`; it enters the model as the oracle
argument `F`.  The mathematical Marchenko–Pastur distribution function is
strictly increasing across its median, which is reflected by the hypothesis
that `F` takes the value `1/2` at most once. -/

/-- The five sample points `np.linspace(lobnd, hibnd, 5)` (source line 130). -/
def mpGrid {α : Type} [LinearOrderedField α] (lo hi : α) : List α :=
  (List.range 5).map fun (k : Nat) => lo + (k : α) * ((hi - lo) / 4)

/-- `np.max(x_vals[y_vals < 0.5])` guarded by `np.any(y_vals < 0.5)`
(source lines 132–134): the new lower bound of one iteration. -/
def mpLower {α : Type} [LinearOrderedField α] (F : α → α) (lo hi : α) : α :=
  match (mpGrid lo hi).filter (fun t => F t < 1 / 2) with
  | [] => lo
  | b :: bs => bs.foldl max b

/-- `np.min(x_vals[y_vals > 0.5])` guarded by `np.any(y_vals > 0.5)`
(source lines 135–137): the new upper bound of one iteration. -/
def mpUpper {α : Type} [LinearOrderedField α] (F : α → α) (lo hi : α) : α :=
  match (mpGrid lo hi).filter (fun t => 1 / 2 < F t) with
  | [] => hi
  | b :: bs => bs.foldl min b

/-- The `change` flag after one iteration: set whenever either guard
`np.any(y_vals < 0.5)` or `np.any(y_vals > 0.5)` fires (source lines
132–137) — even if the assignment left the bound where it was. -/
def mpChange {α : Type} [LinearOrderedField α] (F : α → α) (lo hi : α) : Bool :=
  !((mpGrid lo hi).filter (fun t => F t < 1 / 2)).isEmpty ||
  !((mpGrid lo hi).filter (fun t => 1 / 2 < F t)).isEmpty

/-- The `while change and (hibnd - lobnd > 0.001)` loop (source lines
127–137), with explicit fuel; `none` means the fuel ran out before the loop
exited. -/
def mpLoopCode {α : Type} [LinearOrderedField α] (F : α → α) :
    Nat → α → α → Bool → Option (α × α)
  | 0, lo, hi, c => if c ∧ 1 / 1000 < hi - lo then none else some (lo, hi)
  | fuel + 1, lo, hi, c =>
      if c ∧ 1 / 1000 < hi - lo then
        mpLoopCode F fuel (mpLower F lo hi) (mpUpper F lo hi) (mpChange F lo hi)
      else some (lo, hi)

/-- Modelled from the spec: the same grid bisection, but continuing exactly
when "a bound moved in an iteration" — the claim's stopping condition — in
place of the source's raw guard flag. -/
def mpLoopSpec {α : Type} [LinearOrderedField α] (F : α → α) :
    Nat → α → α → Bool → Option (α × α)
  | 0, lo, hi, c => if c ∧ 1 / 1000 < hi - lo then none else some (lo, hi)
  | fuel + 1, lo, hi, c =>
      if c ∧ 1 / 1000 < hi - lo then
        mpLoopSpec F fuel (mpLower F lo hi) (mpUpper F lo hi)
          (decide (mpLower F lo hi ≠ lo ∨ mpUpper F lo hi ≠ hi))
      else some (lo, hi)

/-- `median_marcenko_pastur` (source lines 116–139): bounds initialized to
the support endpoints `[(1−√β)², (1+√β)²]`, grid bisection, and the midpoint
`(hibnd + lobnd)/2` as result. -/
noncomputable def median_marcenko_pastur (F : ℝ → ℝ) (beta : ℝ) (fuel : Nat) :
    Option ℝ :=
  (mpLoopCode F fuel ((1 - Real.sqrt beta) ^ 2) ((1 + Real.sqrt beta) ^ 2)
    true).map fun s => (s.2 + s.1) / 2

/-- Modelled from the spec: the solver exactly as C5 describes it, from given
initial bounds, returning the midpoint `(lo + hi)/2`. -/
noncomputable def mpSolverSpec (F : ℝ → ℝ) (bot top : ℝ) (fuel : Nat) :
    Option ℝ :=
  (mpLoopSpec F fuel bot top true).map fun s => (s.1 + s.2) / 2

/-! #### Auxiliary facts about `foldl max` / `foldl min` -/

theorem le_foldl_max {α : Type} [LinearOrder α] :
    ∀ (bs : List α) (b t : α), t ∈ b :: bs → t ≤ bs.foldl max b
  | [], b, t, ht => by
      simp only [List.mem_cons, List.not_mem_nil, or_false] at ht
      simp [ht]
  | c :: cs, b, t, ht => by
      simp only [List.foldl_cons]
      rcases List.mem_cons.mp ht with rfl | ht'
      · exact le_trans (le_max_left t c)
          (le_foldl_max cs (max t c) _ (List.mem_cons_self _ _))
      · rcases List.mem_cons.mp ht' with rfl | ht''
        · exact le_trans (le_max_right b t)
            (le_foldl_max cs (max b t) _ (List.mem_cons_self _ _))
        · exact le_foldl_max cs (max b c) t (List.mem_cons_of_mem _ ht'')

theorem foldl_min_le {α : Type} [LinearOrder α] :
    ∀ (bs : List α) (b t : α), t ∈ b :: bs → bs.foldl min b ≤ t
  | [], b, t, ht => by
      simp only [List.mem_cons, List.not_mem_nil, or_false] at ht
      simp [ht]
  | c :: cs, b, t, ht => by
      simp only [List.foldl_cons]
      rcases List.mem_cons.mp ht with rfl | ht'
      · exact le_trans (foldl_min_le cs (min t c) _ (List.mem_cons_self _ _))
            (min_le_left t c)
      · rcases List.mem_cons.mp ht' with rfl | ht''
        · exact le_trans (foldl_min_le cs (min b t) _ (List.mem_cons_self _ _))
            (min_le_right b t)
        · exact foldl_min_le cs (min b c) t (List.mem_cons_of_mem _ ht'')

theorem foldl_max_mem {α : Type} [LinearOrder α] :
    ∀ (bs : List α) (b : α), bs.foldl max b ∈ b :: bs
  | [], b => List.mem_cons_self b []
  | c :: cs, b => by
      simp only [List.foldl_cons]
      have h := foldl_max_mem cs (max b c)
      rcases List.mem_cons.mp h with h' | h'
      · rcases max_choice b c with hm | hm
        · rw [h', hm]
          exact List.mem_cons_self _ _
        · rw [h', hm]
          exact List.mem_cons_of_mem _ (List.mem_cons_self _ _)
      · exact List.mem_cons_of_mem _ (List.mem_cons_of_mem _ h')

theorem foldl_min_mem {α : Type} [LinearOrder α] :
    ∀ (bs : List α) (b : α), bs.foldl min b ∈ b :: bs
  | [], b => List.mem_cons_self b []
  | c :: cs, b => by
      simp only [List.foldl_cons]
      have h := foldl_min_mem cs (min b c)
      rcases List.mem_cons.mp h with h' | h'
      · rcases min_choice b c with hm | hm
        · rw [h', hm]
          exact List.mem_cons_self _ _
        · rw [h', hm]
          exact List.mem_cons_of_mem _ (List.mem_cons_self _ _)
      · exact List.mem_cons_of_mem _ (List.mem_cons_of_mem _ h')

/-! #### One-iteration analysis of the grid bisection -/

theorem mpGrid_mem_iff {α : Type} [LinearOrderedField α] {lo hi t : α} :
    t ∈ mpGrid lo hi ↔ ∃ k : Nat, k < 5 ∧ lo + (k : α) * ((hi - lo) / 4) = t := by
  simp only [mpGrid, List.mem_map, List.mem_range]

theorem mpGrid_ge {α : Type} [LinearOrderedField α] {lo hi t : α}
    (hle : lo ≤ hi) (ht : t ∈ mpGrid lo hi) : lo ≤ t := by
  obtain ⟨k, _, rfl⟩ := mpGrid_mem_iff.mp ht
  have hd : (0 : α) ≤ (hi - lo) / 4 := by
    have : (0 : α) ≤ hi - lo := sub_nonneg.mpr hle
    linarith
  have hkc : (0 : α) ≤ (k : α) := Nat.cast_nonneg k
  have := mul_nonneg hkc hd
  linarith

theorem mpGrid_le {α : Type} [LinearOrderedField α] {lo hi t : α}
    (hle : lo ≤ hi) (ht : t ∈ mpGrid lo hi) : t ≤ hi := by
  obtain ⟨k, hk, rfl⟩ := mpGrid_mem_iff.mp ht
  have hd : (0 : α) ≤ (hi - lo) / 4 := by
    have : (0 : α) ≤ hi - lo := sub_nonneg.mpr hle
    linarith
  have hkc : (k : α) ≤ 4 := by
    have : k ≤ 4 := by omega
    exact_mod_cast this
  have h4 : lo + 4 * ((hi - lo) / 4) = hi := by ring
  nlinarith

theorem lo_le_mpLower {α : Type} [LinearOrderedField α] (F : α → α) {lo hi : α}
    (hle : lo ≤ hi) : lo ≤ mpLower F lo hi := by
  unfold mpLower
  cases h : (mpGrid lo hi).filter (fun t => F t < 1 / 2) with
  | nil => exact le_rfl
  | cons b bs =>
      have hb : b ∈ (mpGrid lo hi).filter (fun t => F t < 1 / 2) := by
        rw [h]
        exact List.mem_cons_self _ _
      exact le_trans (mpGrid_ge hle (List.mem_of_mem_filter hb))
        (le_foldl_max bs b b (List.mem_cons_self _ _))

theorem mpUpper_le_hi {α : Type} [LinearOrderedField α] (F : α → α) {lo hi : α}
    (hle : lo ≤ hi) : mpUpper F lo hi ≤ hi := by
  unfold mpUpper
  cases h : (mpGrid lo hi).filter (fun t => 1 / 2 < F t) with
  | nil => exact le_rfl
  | cons b bs =>
      have hb : b ∈ (mpGrid lo hi).filter (fun t => 1 / 2 < F t) := by
        rw [h]
        exact List.mem_cons_self _ _
      exact le_trans (foldl_min_le bs b b (List.mem_cons_self _ _))
        (mpGrid_le hle (List.mem_of_mem_filter hb))

theorem le_mpLower_of_mem {α : Type} [LinearOrderedField α] (F : α → α) {lo hi t : α}
    (ht : t ∈ (mpGrid lo hi).filter (fun t => F t < 1 / 2)) :
    t ≤ mpLower F lo hi := by
  unfold mpLower
  cases h : (mpGrid lo hi).filter (fun t => F t < 1 / 2) with
  | nil =>
      rw [h] at ht
      cases ht
  | cons b bs =>
      rw [h] at ht
      exact le_foldl_max bs b t ht

theorem mpUpper_le_of_mem {α : Type} [LinearOrderedField α] (F : α → α) {lo hi t : α}
    (ht : t ∈ (mpGrid lo hi).filter (fun t => 1 / 2 < F t)) :
    mpUpper F lo hi ≤ t := by
  unfold mpUpper
  cases h : (mpGrid lo hi).filter (fun t => 1 / 2 < F t) with
  | nil =>
      rw [h] at ht
      cases ht
  | cons b bs =>
      rw [h] at ht
      exact foldl_min_le bs b t ht

theorem mpLower_eq_or_mem {α : Type} [LinearOrderedField α] (F : α → α) (lo hi : α) :
    mpLower F lo hi = lo ∨
    mpLower F lo hi ∈ (mpGrid lo hi).filter (fun t => F t < 1 / 2) := by
  unfold mpLower
  cases h : (mpGrid lo hi).filter (fun t => F t < 1 / 2) with
  | nil => exact Or.inl rfl
  | cons b bs =>
      right
      show bs.foldl max b ∈ b :: bs
      exact foldl_max_mem bs b

theorem mpUpper_eq_or_mem {α : Type} [LinearOrderedField α] (F : α → α) (lo hi : α) :
    mpUpper F lo hi = hi ∨
    mpUpper F lo hi ∈ (mpGrid lo hi).filter (fun t => 1 / 2 < F t) := by
  unfold mpUpper
  cases h : (mpGrid lo hi).filter (fun t => 1 / 2 < F t) with
  | nil => exact Or.inl rfl
  | cons b bs =>
      right
      show bs.foldl min b ∈ b :: bs
      exact foldl_min_mem bs b

theorem mp_mid_eq_half {α : Type} [LinearOrderedField α] (F : α → α) {lo hi : α}
    (hwid : 1 / 1000 < hi - lo) (hlo : mpLower F lo hi = lo)
    (hhi : mpUpper F lo hi = hi) (k : Nat) (hk1 : 1 ≤ k) (hk3 : k ≤ 3) :
    F (lo + (k : α) * ((hi - lo) / 4)) = 1 / 2 := by
  have hpos : (0 : α) < hi - lo := lt_trans (by norm_num) hwid
  have hdpos : (0 : α) < (hi - lo) / 4 := by linarith
  have hgrid : lo + (k : α) * ((hi - lo) / 4) ∈ mpGrid lo hi :=
    mpGrid_mem_iff.mpr ⟨k, by omega, rfl⟩
  rcases lt_trichotomy (F (lo + (k : α) * ((hi - lo) / 4))) (1 / 2) with hlt | heq | hgt
  · exfalso
    have hmem : lo + (k : α) * ((hi - lo) / 4) ∈
        (mpGrid lo hi).filter (fun t => F t < 1 / 2) :=
      List.mem_filter.mpr ⟨hgrid, by simpa using hlt⟩
    have hle := le_mpLower_of_mem F hmem
    rw [hlo] at hle
    have hkc : (1 : α) ≤ (k : α) := by exact_mod_cast hk1
    nlinarith
  · exact heq
  · exfalso
    have hmem : lo + (k : α) * ((hi - lo) / 4) ∈
        (mpGrid lo hi).filter (fun t => 1 / 2 < F t) :=
      List.mem_filter.mpr ⟨hgrid, by simpa using hgt⟩
    have hle := mpUpper_le_of_mem F hmem
    rw [hhi] at hle
    have hkc : (k : α) ≤ 3 := by exact_mod_cast hk3
    have h4 : lo + 4 * ((hi - lo) / 4) = hi := by ring
    nlinarith

theorem mp_bound_moved {α : Type} [LinearOrderedField α] (F : α → α) {lo hi : α}
    (hF : ∀ a b : α, F a = 1 / 2 → F b = 1 / 2 → a = b)
    (hwid : 1 / 1000 < hi - lo) :
    mpLower F lo hi ≠ lo ∨ mpUpper F lo hi ≠ hi := by
  by_contra h
  push_neg at h
  have h1 := mp_mid_eq_half F hwid h.1 h.2 1 le_rfl (by omega)
  have h2 := mp_mid_eq_half F hwid h.1 h.2 2 (by omega) (by omega)
  have hcast := hF _ _ h1 h2
  push_cast at hcast
  have hpos : (0 : α) < hi - lo := lt_trans (by norm_num) hwid
  have : (hi - lo) / 4 = 0 := by linarith
  linarith

theorem mpChange_true {α : Type} [LinearOrderedField α] (F : α → α) {lo hi : α}
    (hF : ∀ a b : α, F a = 1 / 2 → F b = 1 / 2 → a = b)
    (hwid : 1 / 1000 < hi - lo) : mpChange F lo hi = true := by
  rcases mp_bound_moved F hF hwid with h | h
  · cases hb : (mpGrid lo hi).filter (fun t => F t < 1 / 2) with
    | nil =>
        exfalso
        apply h
        unfold mpLower
        rw [hb]
    | cons b bs =>
        unfold mpChange
        rw [hb]
        simp
  · cases hb : (mpGrid lo hi).filter (fun t => 1 / 2 < F t) with
    | nil =>
        exfalso
        apply h
        unfold mpUpper
        rw [hb]
    | cons b bs =>
        unfold mpChange
        rw [hb]
        simp

theorem mpShrink {α : Type} [LinearOrderedField α] (F : α → α) {lo hi : α}
    (hF : ∀ a b : α, F a = 1 / 2 → F b = 1 / 2 → a = b)
    (hwid : 1 / 1000 < hi - lo) :
    mpUpper F lo hi - mpLower F lo hi ≤ (3 / 4) * (hi - lo) := by
  have hpos : (0 : α) < hi - lo := lt_trans (by norm_num) hwid
  have hle : lo ≤ hi := by linarith
  have hdpos : (0 : α) < (hi - lo) / 4 := by linarith
  rcases mp_bound_moved F hF hwid with h | h
  · rcases mpLower_eq_or_mem F lo hi with heq | hmem
    · exact absurd heq h
    · obtain ⟨k, hk5, hkeq⟩ :=
        mpGrid_mem_iff.mp (List.mem_of_mem_filter hmem)
      have hk1 : 1 ≤ k := by
        rcases Nat.eq_zero_or_pos k with rfl | hpos'
        · exfalso
          apply h
          rw [← hkeq]
          simp
        · exact hpos'
      have hkc : (1 : α) ≤ (k : α) := by exact_mod_cast hk1
      have hup : mpUpper F lo hi ≤ hi := mpUpper_le_hi F hle
      have hlow : lo + (hi - lo) / 4 ≤ mpLower F lo hi := by
        rw [← hkeq]
        nlinarith
      linarith
  · rcases mpUpper_eq_or_mem F lo hi with heq | hmem
    · exact absurd heq h
    · obtain ⟨k, hk5, hkeq⟩ :=
        mpGrid_mem_iff.mp (List.mem_of_mem_filter hmem)
      have hk3 : k ≤ 3 := by
        rcases Nat.lt_or_ge k 4 with hlt | hge
        · omega
        · exfalso
          have hk4 : k = 4 := by omega
          apply h
          rw [← hkeq, hk4]
          push_cast
          ring
      have hkc : (k : α) ≤ 3 := by exact_mod_cast hk3
      have hlow : lo ≤ mpLower F lo hi := lo_le_mpLower F hle
      have hup : mpUpper F lo hi ≤ lo + 3 * ((hi - lo) / 4) := by
        rw [← hkeq]
        nlinarith
      linarith

/-- Under the unique-median hypothesis, the source's `change` flag and the
claim's "a bound moved" condition drive the loop through identical states:
the two loops agree for every fuel, state, and flag. -/
theorem mpLoop_code_eq_spec {α : Type} [LinearOrderedField α] (F : α → α)
    (hF : ∀ a b : α, F a = 1 / 2 → F b = 1 / 2 → a = b) :
    ∀ (fuel : Nat) (lo hi : α) (c : Bool),
      mpLoopCode F fuel lo hi c = mpLoopSpec F fuel lo hi c
  | 0, lo, hi, c => rfl
  | fuel + 1, lo, hi, c => by
      simp only [mpLoopCode, mpLoopSpec]
      by_cases hcond : c = true ∧ 1 / 1000 < hi - lo
      · rw [if_pos hcond, if_pos hcond,
          mpChange_true F hF hcond.2,
          decide_eq_true (mp_bound_moved F hF hcond.2)]
        exact mpLoop_code_eq_spec F hF fuel _ _ true
      · rw [if_neg hcond, if_neg hcond]

theorem mpLoopCode_terminates {α : Type} [LinearOrderedField α] (F : α → α)
    (hF : ∀ a b : α, F a = 1 / 2 → F b = 1 / 2 → a = b) :
    ∀ (fuel : Nat) (lo hi : α) (c : Bool),
      (3 / 4) ^ fuel * (hi - lo) ≤ 1 / 1000 →
      (mpLoopCode F fuel lo hi c).isSome = true
  | 0, lo, hi, c, hfuel => by
      simp only [mpLoopCode]
      rw [if_neg]
      · rfl
      · rintro ⟨-, hlt⟩
        rw [pow_zero, one_mul] at hfuel
        linarith
  | fuel + 1, lo, hi, c, hfuel => by
      simp only [mpLoopCode]
      by_cases hcond : c = true ∧ 1 / 1000 < hi - lo
      · rw [if_pos hcond]
        apply mpLoopCode_terminates F hF fuel _ _ _
        have hshrink := mpShrink F hF hcond.2
        have hnn : (0 : α) ≤ (3 / 4) ^ fuel := by positivity
        calc (3 / 4 : α) ^ fuel * (mpUpper F lo hi - mpLower F lo hi)
            ≤ (3 / 4) ^ fuel * ((3 / 4) * (hi - lo)) :=
              mul_le_mul_of_nonneg_left hshrink hnn
          _ = (3 / 4) ^ (fuel + 1) * (hi - lo) := by ring
          _ ≤ 1 / 1000 := hfuel
      · rw [if_neg hcond]
        rfl

/-! ### C5: the Marchenko–Pastur median solver steps -/

/-- C5: for `β ∈ (0,1]` and a distribution oracle `F` that crosses `1/2` only
once (true of the Marchenko–Pastur distribution function the source
integrates), `median_marcenko_pastur` behaves exactly as described: bounds
initialized to the support endpoints `[(1−√β)², (1+√β)²]`, each iteration
tightening `lo` to the largest of 5 evenly spaced samples with `F < 0.5` and
`hi` to the smallest with `F > 0.5`, stopping when `hi − lo ≤ 0.001` or no
bound moved, returning the midpoint. -/
theorem mp_median_solver_matches_spec (F : ℝ → ℝ) (beta : ℝ)
    (_h0 : 0 < beta) (_h1 : beta ≤ 1) (fuel : Nat)
    (hF : ∀ a b : ℝ, F a = 1 / 2 → F b = 1 / 2 → a = b) :
    median_marcenko_pastur F beta fuel =
      mpSolverSpec F ((1 - Real.sqrt beta) ^ 2) ((1 + Real.sqrt beta) ^ 2) fuel := by
  unfold median_marcenko_pastur mpSolverSpec
  rw [mpLoop_code_eq_spec F hF fuel]
  cases mpLoopSpec F fuel ((1 - Real.sqrt beta) ^ 2) ((1 + Real.sqrt beta) ^ 2) true with
  | none => rfl
  | some s => simp [add_comm]

/-- Witness for `mp_median_solver_matches_spec` at `β = 1`, `F = id`. -/
theorem mp_median_solver_matches_spec_witness :
    median_marcenko_pastur (fun x => x) 1 5 =
      mpSolverSpec (fun x => x) ((1 - Real.sqrt 1) ^ 2) ((1 + Real.sqrt 1) ^ 2) 5 :=
  mp_median_solver_matches_spec (fun x => x) 1 one_pos le_rfl 5
    (fun _ _ h1 h2 => h1.trans h2.symm)

/-! ### C6: bisection termination -/

/-- C6: for every `β ∈ (0,1]` (and a distribution oracle crossing `1/2` only
once), the grid bisection terminates: the interval shrinks by a factor
`≤ 3/4` per continuing iteration from an initial width `4√β ≤ 4`, so 40
iterations of fuel always suffice — the loop cannot run forever. -/
theorem mp_bisection_terminates (F : ℝ → ℝ) (beta : ℝ)
    (_h0 : 0 < beta) (h1 : beta ≤ 1)
    (hF : ∀ a b : ℝ, F a = 1 / 2 → F b = 1 / 2 → a = b) :
    (median_marcenko_pastur F beta 40).isSome = true := by
  have hs0 : (0 : ℝ) ≤ Real.sqrt beta := Real.sqrt_nonneg beta
  have hs1 : Real.sqrt beta ≤ 1 := Real.sqrt_le_one.mpr h1
  have hwidth : (1 + Real.sqrt beta) ^ 2 - (1 - Real.sqrt beta) ^ 2 =
      4 * Real.sqrt beta := by ring
  have hbound : (3 / 4 : ℝ) ^ 40 *
      ((1 + Real.sqrt beta) ^ 2 - (1 - Real.sqrt beta) ^ 2) ≤ 1 / 1000 := by
    rw [hwidth]
    have hnn : (0 : ℝ) ≤ (3 / 4) ^ 40 := by positivity
    calc (3 / 4 : ℝ) ^ 40 * (4 * Real.sqrt beta)
        ≤ (3 / 4) ^ 40 * 4 := by nlinarith
      _ ≤ 1 / 1000 := by norm_num
  have hterm := mpLoopCode_terminates F hF 40
    ((1 - Real.sqrt beta) ^ 2) ((1 + Real.sqrt beta) ^ 2) true hbound
  unfold median_marcenko_pastur
  obtain ⟨s, hs⟩ := Option.isSome_iff_exists.mp hterm
  rw [hs]
  rfl

/-- Witness for `mp_bisection_terminates` at `β = 1`, `F = id`. -/
theorem mp_bisection_terminates_witness :
    (median_marcenko_pastur (fun x => x) 1 40).isSome = true :=
  mp_bisection_terminates (fun x => x) 1 one_pos le_rfl
    (fun _ _ h1 h2 => h1.trans h2.symm)

/-! ### The smoothing stage of `main` (source lines 284–297) -/

/-- `np.arange(start, stop, step)` for positive step: the values
`start + k·step` for `k < ⌈(stop − start)/step⌉`. -/
def arangeQ (start stop step : ℚ) : List ℚ :=
  (List.range (Int.toNat ⌈(stop - start) / step⌉)).map
    fun (k : Nat) => start + (k : ℚ) * step

/-- The `[::2]` stride (source line 297): every second element, starting at
index 0. -/
def everySecond {β : Type} : List β → List β
  | [] => []
  | [a] => [a]
  | a :: _ :: rest => a :: everySecond rest

/-- The per-column smoothing stage of `main` (lines 284–297): the
Savitzky–Golay filter `g` (external `scipy.signal.savgol_filter`, same-length
by its contract), then the cubic-spline resample — evaluate the spline fitted
to the filtered series (external `scipy.interpolate.CubicSpline`, supplied as
the evaluation oracle `spl`) on `np.arange(1, Nepiweeks+1, 0.5)` and keep
every second value. -/
def smoothStage (g : List ℚ → List ℚ) (spl : List ℚ → ℚ → ℚ) (xs : List ℚ) :
    List ℚ :=
  everySecond ((arangeQ 1 ((xs.length : ℚ) + 1) (1 / 2)).map (spl (g xs)))

/-- The spline resample alone (lines 290–297), acting on an already filtered
series. -/
def splineStage (spl : List ℚ → ℚ → ℚ) (ys : List ℚ) : List ℚ :=
  everySecond ((arangeQ 1 ((ys.length : ℚ) + 1) (1 / 2)).map (spl ys))

theorem everySecond_length {β : Type} : ∀ l : List β,
    (everySecond l).length = (l.length + 1) / 2
  | [] => by simp [everySecond]
  | [_] => by simp [everySecond]
  | _ :: _ :: rest => by
      simp only [everySecond, List.length_cons, everySecond_length rest]
      omega

theorem everySecond_getElem? {β : Type} : ∀ (l : List β) (i : Nat),
    (everySecond l)[i]? = l[2 * i]?
  | [], i => by simp [everySecond]
  | [a], 0 => by
      rw [show everySecond [a] = [a] from by simp [everySecond]]
  | [a], i + 1 => by
      rw [show everySecond [a] = [a] from by simp [everySecond],
        List.getElem?_eq_none (Nat.succ_le_succ (Nat.zero_le i)),
        List.getElem?_eq_none (by simp only [List.length_singleton]; omega)]
  | a :: b :: rest, 0 => by
      rw [show everySecond (a :: b :: rest) = a :: everySecond rest from by
        simp [everySecond]]
      simp
  | a :: b :: rest, i + 1 => by
      rw [show everySecond (a :: b :: rest) = a :: everySecond rest from by
          simp [everySecond],
        show 2 * (i + 1) = 2 * i + 1 + 1 by ring,
        List.getElem?_cons_succ, List.getElem?_cons_succ, List.getElem?_cons_succ,
        everySecond_getElem? rest i]

theorem arangeQ_length_grid (N : Nat) :
    (arangeQ 1 ((N : ℚ) + 1) (1 / 2)).length = 2 * N := by
  unfold arangeQ
  rw [List.length_map, List.length_range]
  have h1 : ((N : ℚ) + 1 - 1) / (1 / 2) = ((2 * N : Nat) : ℚ) := by
    push_cast
    ring
  rw [h1, Int.ceil_natCast]
  exact Int.toNat_natCast _

/-! ### C9: smoothing length invariance -/

/-- C9: the smoothing stage — Savitzky–Golay filter (same-length by the
scipy contract `hg`) followed by the spline upsample-to-step-0.5 and
take-every-second-point pass — returns a series of exactly the input
length `N`. -/
theorem smoothing_length_invariance (g : List ℚ → List ℚ)
    (spl : List ℚ → ℚ → ℚ) (xs : List ℚ)
    (_hg : (g xs).length = xs.length) (_h2 : 2 ≤ xs.length) :
    (smoothStage g spl xs).length = xs.length := by
  unfold smoothStage
  rw [everySecond_length, List.length_map, arangeQ_length_grid]
  omega

/-- Witness for `smoothing_length_invariance` on `[1, 2]` with the identity
filter and the zero spline oracle. -/
theorem smoothing_length_invariance_witness :
    (smoothStage (fun l => l) (fun _ _ => 0) [1, 2]).length =
      List.length ([1, 2] : List ℚ) :=
  smoothing_length_invariance (fun l => l) (fun _ _ => 0) [1, 2] rfl (by decide)

/-! ### C10: the spline round trip is the identity on values -/

/-- C10: `np.arange(1, N+1, 0.5)[::2]` lands exactly on the integer knots
`1..N`, so whenever `spl` interpolates its data at those knots (the defining
contract of `CubicSpline`), the resample stage returns the input series
unchanged — not merely one of the same length. -/
theorem spline_roundtrip_identity (ys : List ℚ) (spl : List ℚ → ℚ → ℚ)
    (_h2 : 2 ≤ ys.length)
    (hspl : ∀ k : Nat, k < ys.length → spl ys ((k : ℚ) + 1) = ys.getD k 0) :
    splineStage spl ys = ys := by
  unfold splineStage
  apply List.ext_getElem
  · rw [everySecond_length, List.length_map, arangeQ_length_grid]
    omega
  · intro i h1 h2
    have h2i : 2 * i <
        ((arangeQ 1 ((ys.length : ℚ) + 1) (1 / 2)).map (spl ys)).length := by
      rw [List.length_map, arangeQ_length_grid]
      omega
    have hq := everySecond_getElem?
      ((arangeQ 1 ((ys.length : ℚ) + 1) (1 / 2)).map (spl ys)) i
    rw [List.getElem?_eq_getElem h1, List.getElem?_eq_getElem h2i] at hq
    have hv := Option.some_injective _ hq
    rw [hv, List.getElem_map]
    have h2i' : 2 * i < (arangeQ 1 ((ys.length : ℚ) + 1) (1 / 2)).length := by
      rw [arangeQ_length_grid]
      omega
    have hgrid : (arangeQ 1 ((ys.length : ℚ) + 1) (1 / 2))[2 * i] =
        1 + ((2 * i : Nat) : ℚ) * (1 / 2) := by
      unfold arangeQ
      rw [List.getElem_map, List.getElem_range]
    rw [hgrid, show (1 : ℚ) + ((2 * i : Nat) : ℚ) * (1 / 2) = (i : ℚ) + 1 by
      push_cast
      ring]
    rw [hspl i h2]
    exact List.getD_eq_getElem ys 0 h2

/-- Witness for `spline_roundtrip_identity` on `[0, 0]` with the constant
zero spline oracle (which interpolates `[0, 0]` at the knots `1, 2`). -/
theorem spline_roundtrip_identity_witness :
    splineStage (fun _ _ => 0) [0, 0] = [0, 0] :=
  spline_roundtrip_identity [0, 0] (fun _ _ => 0) (by decide)
    (fun k hk => by
      have hk2 : k < 2 := by simpa using hk
      interval_cases k <;> rfl)
